import Mathlib

/-!
Shallow embedding of `src/es6/lib/safeps.js` (the safeps module).

JavaScript values are modelled as follows: nullable strings become
`Option String` (with JS truthiness of a string value being non-null and
non-empty), nullable integers become `Option Int`, buffers become
`String`, and the mutable module-level caches become explicit state that
each modelled function receives and returns.  Environment variables and
the platform flag are gathered into an explicit environment record.
Callback results `next(err, value)` become ordinary return values.
-/

namespace Safeps

/-- JS truthiness of a nullable string: truthy iff non-null and non-empty. -/
def strTruthy : Option String → Bool
  | none => false
  | some s => s ≠ ""

/-- Character-level substring test used to model the regex test
`/EACCESS|Permission denied/.test(msg)` (alternation of two literals). -/
def startsWithChars : List Char → List Char → Bool
  | [], _ => true
  | _ :: _, [] => false
  | a :: as, b :: bs => a = b && startsWithChars as bs

/-- Does `needle` occur as a contiguous run inside `hay`? -/
def infixChars (needle : List Char) : List Char → Bool
  | [] => startsWithChars needle []
  | b :: bs => startsWithChars needle (b :: bs) || infixChars needle bs

/-- Split a list of characters at every character satisfying `p`,
mirroring the semantics of JavaScript `String.prototype.split` with a
single-character separator (adjacent separators yield empty fields, and
the empty string yields one empty field). -/
def splitFieldsAux (p : Char → Bool) : List Char → List Char → List (List Char)
  | [], acc => [acc.reverse]
  | c :: cs, acc =>
    if p c then acc.reverse :: splitFieldsAux p cs []
    else splitFieldsAux p cs (c :: acc)

/-- String-level wrapper of `splitFieldsAux`. -/
def splitFields (p : Char → Bool) (s : String) : List String :=
  (splitFieldsAux p s.data []).map (fun l => String.mk l)

/-- Model of JS `String.prototype.trim`: drop whitespace from both ends. -/
def trimChars (cs : List Char) : List Char :=
  ((cs.dropWhile Char.isWhitespace).reverse.dropWhile Char.isWhitespace).reverse

/-- String-level wrapper of `trimChars`. -/
def jsTrim (s : String) : String := String.mk (trimChars s.data)

/-- Model of the global newline replacement in `prefixData` (regex replace of each newline with a newline followed by the prefix): after every newline,
insert the prefix characters. -/
def replaceNewlinesAux (pfxChars : List Char) : List Char → List Char
  | [] => []
  | c :: cs =>
    if c = '\n' then '\n' :: (pfxChars ++ replaceNewlinesAux pfxChars cs)
    else c :: replaceNewlinesAux pfxChars cs

/-- String-level wrapper of `replaceNewlinesAux`. -/
def replaceNewlines (s pfx : String) : String :=
  String.mk (replaceNewlinesAux pfx.data s.data)

/-- The options consulted by result finalization and output mirroring
(the `output` and `outputPrefix` fields of the option bag, after
`prepareExecutableOptions` has normalized them). -/
structure ExecOpts where
  output : Bool
  outPfx : Option String
deriving DecidableEq

/-- The normalized execution result built by the invocation engine
(`pid` is omitted: no modelled claim consults it). -/
structure ExecResult where
  stdout : Option String
  stderr : Option String
  status : Option Int
  signal : Option String
  error : Option String
deriving DecidableEq

/-- Model of `safeps.prefixData(data, prefixText)` (source lines 365-371):
coerce null to the empty string; when both the prefix and the data are
non-empty, prefix the trimmed data and every subsequent line, and append
a trailing newline.  The source default for the prefix is the string
`">\t"`; callers of this model pass it explicitly. -/
def prefixData (data : Option String) (pfx : String) : String :=
  let d := data.getD ("")
  if pfx ≠ "" && d ≠ "" then pfx ++ replaceNewlines (jsTrim d) pfx ++ "\n"
  else d

/-- The default prefix of `prefixData`: a greater-than sign followed by a tab. -/
def defaultPfx : String := ">\t"

/-- Model of `safeps.outputData(data, channel, prefixText)` (source lines
381-389).  Instead of writing to `process[channel]`, the model returns
the chunk that would be written, or `none` when the trimmed data is
empty and nothing is written.  The prefix is applied only when truthy. -/
def outputData (data : String) (pfx : Option String) : Option String :=
  if jsTrim data ≠ "" then
    some (if strTruthy pfx then prefixData (some data) (pfx.getD ("")) else data)
  else none

/-- Model of `safeps.updateExecutableResult(result, opts)` (source lines
314-354).  Returns the finalized result together with the list of chunks
that `outputData` would emit to the parent streams during finalization.
A null `stdout`/`stderr` passed to `outputData` would throw in JS; the
model treats it as the empty string (which emits nothing). -/
def updateExecutableResult (result : ExecResult) (opts : ExecOpts) :
    ExecResult × List String :=
  let emitted :=
    if opts.output then
      (outputData (result.stdout.getD ("")) opts.outPfx).toList ++
      (outputData (result.stderr.getD ("")) opts.outPfx).toList
    else []
  -- if ( result.error ) return result
  if result.error.isSome then (result, emitted)
  else
    -- if ( result.status != null && result.status !== 0 )
    match result.status with
    | none => (result, emitted)
    | some st =>
      if st = 0 then (result, emitted)
      else
        let m0 := "Command exited with a non-zero status code."
        let m1 :=
          match result.stdout with
          | none => m0
          | some _ =>
            let tmp := prefixData result.stdout defaultPfx
            if tmp ≠ "" then m0 ++ "\nThe command\x27s stdout output:\n" ++ tmp
            else m0
        let m2 :=
          match result.stderr with
          | none => m1
          | some _ =>
            let tmp := prefixData result.stderr defaultPfx
            if tmp ≠ "" then m1 ++ "\nThe command\x27s stderr output:\n" ++ tmp
            else m1
        ({ result with error := some m2 }, emitted)

/-- Model of the `close` handler installed by the asynchronous `spawn`
(source lines 611-627): record `status` and `signal`; if completion was
already reported (`exited`), suppress the duplicate report; otherwise
set `opts.output` to false and finalize through
`updateExecutableResult`.  Returns the updated result, the updated
options, the chunks emitted during finalization, and whether completion
was reported. -/
def spawnCloseHandler (result : ExecResult) (opts : ExecOpts) (exited : Bool)
    (status : Option Int) (signal : Option String) :
    ExecResult × ExecOpts × List String × Bool :=
  let result := { result with status := status, signal := signal }
  if exited then (result, opts, [], false)
  else
    let opts := { opts with output := false }
    let fin := updateExecutableResult result opts
    (fin.1, opts, fin.2, true)

/-! ### Command normalization (`spawn` / `spawnSync`, source lines 444-447 and 530-533) -/

/-- Model of the argv normalization `command.split` at the space separator: split a command string at every space
character. -/
def splitCommand (s : String) : List String :=
  splitFields (fun c => c = ' ') s

/-- A command is either a plain string or an argv list
(`typeChecker.isString(command)` dispatch). -/
def normalizeCommand : Sum String (List String) → List String
  | Sum.inl s => splitCommand s
  | Sum.inr l => l

/-- The executable name used by `spawn`/`spawnSync`: `command[0]` of the
normalized argv list. -/
def commandExecName (c : Sum String (List String)) : String :=
  (normalizeCommand c).headD ("")

/-! ### Executable verifier fallback probe (source lines 181-189 and 224-233) -/

/-- The error object produced by a failed `child_process.exec` probe:
its numeric `code` and its `message`. -/
structure ShimError where
  code : Int
  message : String
deriving DecidableEq

/-- Model of the regex test `/EACCESS|Permission denied/.test(msg)`. -/
def eaccessTest (msg : String) : Bool :=
  infixChars ("EACCESS").data msg.data || infixChars ("Permission denied").data msg.data

/-- The shared classifier of the fallback probe in `isExecutable` and
`isExecutableSync`: with no error the path is executable; with an error,
it is executable unless the code is 127 or the message indicates an
access error (`err.code !== 127 && !/EACCESS|Permission denied/.test(err.message)`). -/
def isExecutableShim (probeErr : Option ShimError) : Bool :=
  match probeErr with
  | none => true
  | some e => decide (e.code ≠ 127) && !(eaccessTest e.message)

/-! ### Path resolution (source lines 806-1233) -/

/-- The ambient state read by the path-resolution subsystem: the platform
flag, the working directory, the `PATH` variable and its separator, the
model of `pathUtil.resolve`, the executable verifier (`isExecutable`
abstracted to its boolean outcome), and the environment variables
consulted by the specialized resolvers. -/
structure ResolveEnv where
  isWindows : Bool
  cwd : String
  pathVar : String
  pathDelim : Char
  resolvePath : String → String
  isExec : String → Bool
  userprofile : Option String
  home : Option String
  gitPathVar : Option String
  gitpathVar : Option String
  nodePathVar : Option String
  nodepathVar : Option String
  npmPathVar : Option String
  npmpathVar : Option String
  procExecPath : String

/-- Model of `pathUtil.join(dir, name)`: separator concatenation. -/
def joinPath (dir name : String) : String := dir ++ "/" ++ name

/-- Model of `getEnvironmentPaths` (source lines 849-855):
`process.env.PATH.split(pathUtil.delimiter)`. -/
def getEnvironmentPaths (env : ResolveEnv) : List String :=
  splitFields (fun c => c = env.pathDelim) env.pathVar

/-- Model of `getStandardExecPaths(execName)` (source lines 858-871): the
current working directory followed by every `PATH` entry; when an
executable name is supplied (truthy), each entry is joined with it. -/
def getStandardExecPaths (env : ResolveEnv) (execName : String) : List String :=
  let standard := env.cwd :: getEnvironmentPaths env
  if execName ≠ "" then standard.map (fun p => joinPath p execName)
  else standard

/-- Does the string contain the character (models `indexOf(c) !== -1`)? -/
def containsChar (s : String) (c : Char) : Bool := s.data.contains c

/-- Model of `getPossibleExecPaths(execName)` (source lines 874-898): on
Windows, a name without a dot is expanded per standard path into the
variants bare, `.exe`, `.cmd`, `.bat`, pushed in that order; otherwise
the standard paths are used as they are. -/
def getPossibleExecPaths (env : ResolveEnv) (execName : String) : List String :=
  if env.isWindows && !(containsChar execName '.') then
    (getStandardExecPaths env execName).flatMap
      (fun p => [p, p ++ ".exe", p ++ ".cmd", p ++ ".bat"])
  else
    getStandardExecPaths env execName

/-- Model of `determineExecPath(possibleExecPaths, opts, next)` (source
lines 808-846).  The candidate tasks run sequentially (the inner task
group has the default concurrency 1): a falsy candidate is skipped; an
accepted candidate is first resolved through `pathUtil.resolve`, and
once one verifies the remaining tasks complete without consulting the
verifier.  Returns the found path (if any) together with the number of
verifier invocations. -/
def determineExecPath (env : ResolveEnv) : List String → Option String × Nat
  | [] => (none, 0)
  | p :: ps =>
    if p = "" then determineExecPath env ps
    else
      let rp := env.resolvePath p
      if env.isExec rp then (some rp, 1)
      else
        let rest := determineExecPath env ps
        (rest.1, rest.2 + 1)

/-- Model of the absolute-path test of `getExecPath` (source line 914):
the first character is a slash or the second character is a colon. -/
def isAbsoluteExecPath (execName : String) : Bool :=
  match execName.data with
  | [] => false
  | c :: rest =>
    c = '/' ||
      (match rest with
       | [] => false
       | c2 :: _ => c2 = ':')

/-- Model of `execName[0].toUpperCase() + execName.substr(1)` (source
line 920; the source throws on the empty string, which the model maps to
the empty string). -/
def capitalizeExecName (s : String) : String :=
  match s.data with
  | [] => ""
  | c :: cs => String.mk (c.toUpper :: cs)

/-- The dynamic method name `get<ExecNameCapitalized>Path` (source line 921). -/
def getExecMethodName (execName : String) : String :=
  "get" ++ capitalizeExecName execName ++ "Path"

/-- The members of the `safeps` object whose name has the shape
`get<X>Path`, i.e. the methods reachable by the dynamic dispatch of
`getExecPath` (source line 924). -/
def safepsGetPathMethods : List String :=
  ["getExecPath", "getHomePath", "getTmpPath", "getGitPath", "getNodePath", "getNpmPath"]

/-- Is this executable name dispatched to a specialized resolver? -/
def isSpecialExecName (execName : String) : Bool :=
  safepsGetPathMethods.contains (getExecMethodName execName)

/-- Lookup in the modelled `execPathCache` (a JS object modelled as an
association list whose most recent write shadows older ones). -/
def cacheLookup (cache : List (String × String)) (k : String) : Option String :=
  (cache.find? (fun e => e.1 = k)).map (fun e => e.2)

/-- The outcome of `getExecPath`: a found path, a failure error message,
or delegation to a specialized resolver (`return safeps[method](opts, next)`,
source line 925), tagged with the method name. -/
inductive ExecPathOutcome where
  | found (path : String)
  | notFound (errMsg : String)
  | dispatched (method : String)
deriving DecidableEq

/-- Model of `getExecPath(execName, opts, next)` (source lines 906-957).
`cacheEnabled` is `opts.cache` after its default (`true`) is applied.
Returns the outcome, the updated `execPathCache`, and the number of
verifier invocations made during the call. -/
def getExecPath (env : ResolveEnv) (cacheEnabled : Bool)
    (cache : List (String × String)) (execName : String) :
    ExecPathOutcome × List (String × String) × Nat :=
  if isAbsoluteExecPath execName then
    (ExecPathOutcome.found execName, cache, 0)
  else if isSpecialExecName execName then
    (ExecPathOutcome.dispatched (getExecMethodName execName), cache, 0)
  else if cacheEnabled && strTruthy (cacheLookup cache execName) then
    (ExecPathOutcome.found ((cacheLookup cache execName).getD ("")), cache, 0)
  else
    let possibleExecPaths := getPossibleExecPaths env execName
    let dr := determineExecPath env possibleExecPaths
    match dr.1 with
    | none =>
      (ExecPathOutcome.notFound ("Could not locate the " ++ execName ++ " executable path"),
       cache, dr.2)
    | some execPath =>
      (ExecPathOutcome.found execPath,
       (if cacheEnabled then (execName, execPath) :: cache else cache), dr.2)

/-- Model of `getHomePath(opts, next)` (source lines 962-984): answer
from the single-slot cache when enabled and truthy; otherwise take
`USERPROFILE || HOME || null` and, when caching is enabled, store it.
Returns the reported home path and the updated `cachedHomePath` slot.
The executable verifier plays no part in this function. -/
def getHomePath (env : ResolveEnv) (cacheEnabled : Bool)
    (cachedHomePath : Option String) : Option String × Option String :=
  if cacheEnabled && strTruthy cachedHomePath then (cachedHomePath, cachedHomePath)
  else
    let homePath :=
      if strTruthy env.userprofile then env.userprofile
      else if strTruthy env.home then env.home
      else none
    (homePath, if cacheEnabled then homePath else cachedHomePath)

/-- Model of `getGitPath(opts, next)` (source lines 1044-1102): cache
check, then `GIT_PATH`/`GITPATH` overrides, the standard paths for
`git`/`git.exe`, and the platform-specific well-known directories, fed
to `determineExecPath`; a success is written to `cachedGitPath` when
caching is enabled. -/
def getGitPath (env : ResolveEnv) (cacheEnabled : Bool)
    (cachedGitPath : Option String) : ExecPathOutcome × Option String × Nat :=
  if cacheEnabled && strTruthy cachedGitPath then
    (ExecPathOutcome.found (cachedGitPath.getD ("")), cachedGitPath, 0)
  else
    let execName := if env.isWindows then ("git.exe") else ("git")
    let possibleExecPaths :=
      (if strTruthy env.gitPathVar then [env.gitPathVar.getD ("")] else []) ++
      (if strTruthy env.gitpathVar then [env.gitpathVar.getD ("")] else []) ++
      getStandardExecPaths env execName ++
      (if env.isWindows then
        ["/Program Files (x64)/Git/bin/" ++ execName,
         "/Program Files (x86)/Git/bin/" ++ execName,
         "/Program Files/Git/bin/" ++ execName]
      else
        ["/usr/local/bin/" ++ execName,
         "/usr/bin/" ++ execName,
         "~/bin/" ++ execName])
    let dr := determineExecPath env possibleExecPaths
    match dr.1 with
    | none => (ExecPathOutcome.notFound ("Could not locate git binary"), cachedGitPath, dr.2)
    | some execPath =>
      (ExecPathOutcome.found execPath,
       (if cacheEnabled then some execPath else cachedGitPath), dr.2)

/-- Model of the regex test `/node(.exe)?$/.test(s)`: the string ends in
`node`, or in `node` followed by any one character and `exe`. -/
def matchesNodeSuffix (s : String) : Bool :=
  decide (s.data.reverse.take 4 = ("node").data.reverse) ||
  (decide (s.data.reverse.take 3 = ("exe").data.reverse) &&
   decide ((s.data.reverse.drop 4).take 4 = ("node").data.reverse))

/-- Model of `s.replace(/node(.exe)?$/, repl)`: the leftmost match is the
longer `node<any>exe` suffix when present, else the `node` suffix; if
neither matches, the string is unchanged. -/
def replaceNodeSuffix (s repl : String) : String :=
  if decide (s.data.reverse.take 3 = ("exe").data.reverse) &&
     decide ((s.data.reverse.drop 4).take 4 = ("node").data.reverse) then
    String.mk (s.data.take (s.data.length - 8)) ++ repl
  else if decide (s.data.reverse.take 4 = ("node").data.reverse) then
    String.mk (s.data.take (s.data.length - 4)) ++ repl
  else s

/-- Model of `getNodePath(opts, next)` (source lines 1108-1167). -/
def getNodePath (env : ResolveEnv) (cacheEnabled : Bool)
    (cachedNodePath : Option String) : ExecPathOutcome × Option String × Nat :=
  if cacheEnabled && strTruthy cachedNodePath then
    (ExecPathOutcome.found (cachedNodePath.getD ("")), cachedNodePath, 0)
  else
    let execName := if env.isWindows then ("node.exe") else ("node")
    let possibleExecPaths :=
      (if strTruthy env.nodePathVar then [env.nodePathVar.getD ("")] else []) ++
      (if strTruthy env.nodepathVar then [env.nodepathVar.getD ("")] else []) ++
      (if matchesNodeSuffix env.procExecPath then [env.procExecPath] else []) ++
      getStandardExecPaths env execName ++
      (if env.isWindows then
        ["/Program Files (x64)/nodejs/" ++ execName,
         "/Program Files (x86)/nodejs/" ++ execName,
         "/Program Files/nodejs/" ++ execName]
      else
        ["/usr/local/bin/" ++ execName,
         "/usr/bin/" ++ execName,
         "~/bin/" ++ execName])
    let dr := determineExecPath env possibleExecPaths
    match dr.1 with
    | none => (ExecPathOutcome.notFound ("Could not locate node binary"), cachedNodePath, dr.2)
    | some execPath =>
      (ExecPathOutcome.found execPath,
       (if cacheEnabled then some execPath else cachedNodePath), dr.2)

/-- Model of `getNpmPath(opts, next)` (source lines 1174-1233). -/
def getNpmPath (env : ResolveEnv) (cacheEnabled : Bool)
    (cachedNpmPath : Option String) : ExecPathOutcome × Option String × Nat :=
  if cacheEnabled && strTruthy cachedNpmPath then
    (ExecPathOutcome.found (cachedNpmPath.getD ("")), cachedNpmPath, 0)
  else
    let execName := if env.isWindows then ("npm.cmd") else ("npm")
    let possibleExecPaths :=
      (if strTruthy env.npmPathVar then [env.npmPathVar.getD ("")] else []) ++
      (if strTruthy env.npmpathVar then [env.npmpathVar.getD ("")] else []) ++
      (if matchesNodeSuffix env.procExecPath then
        [replaceNodeSuffix env.procExecPath execName] else []) ++
      getStandardExecPaths env execName ++
      (if env.isWindows then
        ["/Program Files (x64)/nodejs/" ++ execName,
         "/Program Files (x86)/nodejs/" ++ execName,
         "/Program Files/nodejs/" ++ execName]
      else
        ["/usr/local/bin/" ++ execName,
         "/usr/bin/" ++ execName,
         "~/node_modules/.bin/" ++ execName])
    let dr := determineExecPath env possibleExecPaths
    match dr.1 with
    | none => (ExecPathOutcome.notFound ("Could not locate npm binary"), cachedNpmPath, dr.2)
    | some execPath =>
      (ExecPathOutcome.found execPath,
       (if cacheEnabled then some execPath else cachedNpmPath), dr.2)

/-! ### Batch runners (`spawnMultiple`, source lines 640-674;
`execMultiple`, source lines 766-800)

Both batch runners build a `TaskGroup` with the configured concurrency
(default 1), add one task per command, and in each command completion
callback push the callback arguments onto the shared `results` array and
report the error to the group.  The model abstracts a command to the
outcome its completion callback will deliver, and abstracts the
single-threaded event loop to an explicit schedule: whenever admission
is possible (no error reported yet, a free slot, a pending command) the
group admits the next command in submission order; otherwise one of the
in-flight commands, chosen by the schedule, completes.  On an error the
group stops admitting further commands (the `TaskGroup` default
`pauseOnError`), and the callback receives the first reported error. -/

/-- The outcome a command delivers to its completion callback: the error
argument and the remaining positional arguments, abstracted to a
payload. -/
structure Outcome where
  err : Option String
  payload : String
deriving DecidableEq

/-- One run of the batch task group, driven by `sched`: each entry picks
which in-flight command completes next (taken modulo the number in
flight; an exhausted schedule picks the oldest).  `fuel` bounds the
iteration count; `runMultiple` supplies enough fuel for the run to
finish.  Returns the pushed results, in push order, and the error
reported to the group callback. -/
def runBatchAux (c : Nat) :
    Nat → List Outcome → List Outcome → List Outcome → Option String → List Nat →
    List Outcome × Option String
  | 0, _, _, results, err, _ => (results, err)
  | fuel + 1, pending, running, results, err, sched =>
    if err = none ∧ running.length < c ∧ pending ≠ [] then
      match pending with
      | [] => (results, err)
      | cmd :: rest => runBatchAux c fuel rest (running ++ [cmd]) results err sched
    else
      match running with
      | [] => (results, err)
      | r0 :: _ =>
        let i := (sched.headD 0) % running.length
        let o := running.getD i r0
        runBatchAux c fuel pending (running.eraseIdx i) (results ++ [o])
          (if err = none then o.err else err) sched.tail

/-- Model of `spawnMultiple(commands, opts, next)`: apply the default
concurrency 1 when unset and run the task group to quiescence. -/
def spawnMultiple (concurrency : Option Nat) (commands : List Outcome)
    (sched : List Nat) : List Outcome × Option String :=
  let c := concurrency.getD 1
  runBatchAux c (2 * commands.length + 1) commands [] [] none sched

/-- Model of `execMultiple(commands, opts, next)`: the batch logic is
identical to `spawnMultiple` (only the per-command engine differs, which
the model abstracts into the outcome). -/
def execMultiple (concurrency : Option Nat) (commands : List Outcome)
    (sched : List Nat) : List Outcome × Option String :=
  let c := concurrency.getD 1
  runBatchAux c (2 * commands.length + 1) commands [] [] none sched

/-! ### Spec-side definitions

The following definitions are written from the words of the
specification (not from the source); the theorems below compare the
source models against them. -/

/-- Spec-side sequential batch semantics: run the commands one after
another in submission order, collect each outcome, and stop admitting
further commands after the first error, which becomes the batch
error. -/
def specSeqBatch : List Outcome → List Outcome × Option String
  | [] => ([], none)
  | o :: rest =>
    match o.err with
    | none =>
      let r := specSeqBatch rest
      (o :: r.1, r.2)
    | some e => ([o], some e)

/-- Spec-side candidate selection: the first candidate, in list order
(ignoring empty entries), whose resolved path the executable verifier
accepts. -/
def specFirstAccepted (env : ResolveEnv) (candidates : List String) : Option String :=
  ((candidates.filter (fun s => s ≠ "")).map env.resolvePath).find? env.isExec

/-- Spec-side Windows candidate list: the working directory followed by
each `PATH` directory in listed order, each directory joined with the
name and expanded into the four variants bare, `.exe`, `.cmd`, `.bat`,
with all four variants of one directory preceding any variant of the
next. -/
def specWindowsVariantCandidates (env : ResolveEnv) (name : String) : List String :=
  (env.cwd :: getEnvironmentPaths env).flatMap
    (fun d =>
      [joinPath d name, joinPath d name ++ ".exe",
       joinPath d name ++ ".cmd", joinPath d name ++ ".bat"])

/-- Spec-side command splitting on whitespace: split the command string
at every whitespace character. -/
def specWhitespaceSplit (s : String) : List String :=
  splitFields Char.isWhitespace s

/-- Spec-side join: interleave the fields with single spaces (the inverse
of splitting on the space character). -/
def joinWithSpace : List String → String
  | [] => ""
  | [t] => t
  | t :: ts => t ++ " " ++ joinWithSpace ts

/-- Character-level version of `joinWithSpace`. -/
def joinSpaceChars : List (List Char) → List Char
  | [] => []
  | [t] => t
  | t :: ts => t ++ ' ' :: joinSpaceChars ts

/-! ### Sample environments used by the concrete witnesses -/

/-- A sample Unix-like environment: `PATH` holds two directories, path
resolution is the identity, and the verifier accepts exactly
`/bin/ls`. -/
def sampleUnixEnv : ResolveEnv where
  isWindows := false
  cwd := "/cwd"
  pathVar := "/bin:/usr/bin"
  pathDelim := ':'
  resolvePath := fun s => if s = "" then ("/") else s
  isExec := fun s => s = "/bin/ls"
  userprofile := none
  home := some ("/home/alice")
  gitPathVar := none
  gitpathVar := none
  nodePathVar := none
  nodepathVar := none
  npmPathVar := none
  npmpathVar := none
  procExecPath := "/usr/local/bin/node"

/-- A sample Windows-like environment: `PATH` holds two directories and
the verifier accepts exactly the `.cmd` variant of `foo` in the first
`PATH` directory. -/
def sampleWinEnv : ResolveEnv where
  isWindows := true
  cwd := "C:\\work"
  pathVar := "C:\\bin;D:\\tools"
  pathDelim := ';'
  resolvePath := fun s => s
  isExec := fun s => s = "C:\\bin/foo.cmd"
  userprofile := some ("C:\\Users\\alice")
  home := none
  gitPathVar := none
  gitpathVar := none
  nodePathVar := none
  nodepathVar := none
  npmPathVar := none
  npmpathVar := none
  procExecPath := "C:\\nodejs\\node.exe"

/-- A sample environment whose verifier rejects every path, while the
home directory environment variable is set. -/
def sampleNoExecEnv : ResolveEnv where
  isWindows := false
  cwd := "/cwd"
  pathVar := "/bin"
  pathDelim := ':'
  resolvePath := fun s => s
  isExec := fun _ => false
  userprofile := some ("/home/alice")
  home := none
  gitPathVar := none
  gitpathVar := none
  nodePathVar := none
  nodepathVar := none
  npmPathVar := none
  npmpathVar := none
  procExecPath := "/usr/bin/node"

/-! ## Helper lemmas -/

theorem splitFieldsAux_ne_nil (p : Char → Bool) (cs acc : List Char) :
    splitFieldsAux p cs acc ≠ [] := by
  induction cs generalizing acc with
  | nil => simp [splitFieldsAux]
  | cons c cs ih =>
    simp only [splitFieldsAux]
    split
    · simp
    · exact ih _

theorem joinSpaceChars_cons_of_ne_nil (t : List Char) {ts : List (List Char)}
    (h : ts ≠ []) : joinSpaceChars (t :: ts) = t ++ ' ' :: joinSpaceChars ts := by
  cases ts with
  | nil => exact absurd rfl h
  | cons t2 ts2 => rfl

theorem joinSpaceChars_splitFieldsAux_space (cs : List Char) :
    ∀ acc, joinSpaceChars (splitFieldsAux (fun c => c = ' ') cs acc) = acc.reverse ++ cs := by
  induction cs with
  | nil => intro acc; simp [splitFieldsAux, joinSpaceChars]
  | cons c cs ih =>
    intro acc
    by_cases hc : c = ' '
    · subst hc
      have h1 : splitFieldsAux (fun c => c = ' ') (' ' :: cs) acc
          = acc.reverse :: splitFieldsAux (fun c => c = ' ') cs [] := by
        simp [splitFieldsAux]
      rw [h1, joinSpaceChars_cons_of_ne_nil _ (splitFieldsAux_ne_nil _ _ _), ih []]
      simp
    · have h1 : splitFieldsAux (fun c => c = ' ') (c :: cs) acc
          = splitFieldsAux (fun c => c = ' ') cs (c :: acc) := by
        simp [splitFieldsAux, hc]
      rw [h1, ih (c :: acc)]
      simp

theorem splitFieldsAux_head (p : Char → Bool) (cs : List Char) :
    ∀ acc, (splitFieldsAux p cs acc).headD [] =
      acc.reverse ++ cs.takeWhile (fun c => !(p c)) := by
  induction cs with
  | nil => intro acc; simp [splitFieldsAux]
  | cons c cs ih =>
    intro acc
    simp only [splitFieldsAux, List.takeWhile]
    by_cases hc : p c = true
    · simp [hc]
    · have hc2 : p c = false := by
        cases hpc : p c
        · rfl
        · exact absurd hpc hc
      simp only [hc2, Bool.not_false, if_neg, Bool.false_eq_true, not_false_iff]
      rw [ih (c :: acc)]
      simp

theorem updateExecutableResult_emits_nil (result : ExecResult) (opts : ExecOpts)
    (h : opts.output = false) : (updateExecutableResult result opts).2 = [] := by
  obtain ⟨so, se, st, sg, er⟩ := result
  simp only [updateExecutableResult, h, Bool.false_eq_true, if_neg, not_false_iff,
    if_false]
  split
  · rfl
  · split
    · rfl
    · split
      · rfl
      · rfl

/-! ## Claim theorems -/

/-- Claim C1: after result finalization by `updateExecutableResult`, the
error field is non-null iff an error was already present or the status
is non-null and non-zero; a pre-existing error is never overwritten; a
child that exits with status 0, or with a null status (terminated only
by a signal), ends with a null error. -/
theorem updateExecutableResult_error_invariant (result : ExecResult) (opts : ExecOpts) :
    ((updateExecutableResult result opts).1.error.isSome
        ↔ (result.error.isSome ∨ (result.status ≠ none ∧ result.status ≠ some 0)))
  ∧ (result.error.isSome → (updateExecutableResult result opts).1.error = result.error)
  ∧ (result.status = some 0 → result.error = none →
      (updateExecutableResult result opts).1.error = none)
  ∧ (result.status = none → result.error = none →
      (updateExecutableResult result opts).1.error = none) := by
  obtain ⟨so, se, st, sg, er⟩ := result
  cases er with
  | some e => simp [updateExecutableResult]
  | none =>
    cases st with
    | none => simp [updateExecutableResult]
    | some v =>
      by_cases hv : v = 0 <;> simp [updateExecutableResult, hv]

/-- Witness for C1 at concrete results: a non-zero status synthesizes an
error; a pre-existing error survives; status 0 and signal-only
terminations end with a null error. -/
theorem updateExecutableResult_error_invariant_w :
    (updateExecutableResult ⟨none, none, some 2, none, none⟩ ⟨false, none⟩).1.error.isSome = true
  ∧ (updateExecutableResult ⟨none, none, some 3, none, some ("boom")⟩ ⟨false, none⟩).1.error
      = some ("boom")
  ∧ (updateExecutableResult ⟨none, none, some 0, none, none⟩ ⟨false, none⟩).1.error = none
  ∧ (updateExecutableResult ⟨none, none, none, some ("SIGKILL"), none⟩
      ⟨false, none⟩).1.error = none := by
  refine ⟨?_, ?_, ?_, ?_⟩
  · exact (updateExecutableResult_error_invariant ⟨none, none, some 2, none, none⟩
      ⟨false, none⟩).1.mpr (Or.inr (by simp))
  · exact (updateExecutableResult_error_invariant ⟨none, none, some 3, none, some ("boom")⟩
      ⟨false, none⟩).2.1 (by simp)
  · exact (updateExecutableResult_error_invariant ⟨none, none, some 0, none, none⟩
      ⟨false, none⟩).2.2.1 rfl rfl
  · exact (updateExecutableResult_error_invariant ⟨none, none, none, some ("SIGKILL"), none⟩
      ⟨false, none⟩).2.2.2 rfl rfl

/-- Claim C10: in the asynchronous spawn close handler, output mirroring
is disabled before finalization, so finalization emits nothing to the
parent streams (each captured chunk can only have been mirrored when it
arrived); in particular `updateExecutableResult` with mirroring disabled
emits nothing. -/
theorem spawnCloseHandler_no_reemission (result : ExecResult) (opts : ExecOpts)
    (exited : Bool) (status : Option Int) (signal : Option String) :
    (spawnCloseHandler result opts exited status signal).2.2.1 = []
  ∧ (exited = false →
      (spawnCloseHandler result opts exited status signal).2.1.output = false)
  ∧ (updateExecutableResult result { opts with output := false }).2 = [] := by
  refine ⟨?_, ?_, updateExecutableResult_emits_nil _ _ rfl⟩
  · cases exited with
    | true => rfl
    | false =>
      simp only [spawnCloseHandler, Bool.false_eq_true, if_neg, not_false_iff, if_false]
      exact updateExecutableResult_emits_nil _ _ rfl
  · intro he
    subst he
    rfl

/-- Witness for C10 at a concrete invocation with mirroring initially
enabled. -/
theorem spawnCloseHandler_no_reemission_w :
    (spawnCloseHandler ⟨some ("out"), some ("errout"), none, none, none⟩
        ⟨true, some (">")⟩ false (some 1) none).2.2.1 = []
  ∧ (spawnCloseHandler ⟨some ("out"), some ("errout"), none, none, none⟩
        ⟨true, some (">")⟩ false (some 1) none).2.1.output = false := by
  refine ⟨?_, ?_⟩
  · exact (spawnCloseHandler_no_reemission ⟨some ("out"), some ("errout"), none, none, none⟩
      ⟨true, some (">")⟩ false (some 1) none).1
  · exact (spawnCloseHandler_no_reemission ⟨some ("out"), some ("errout"), none, none, none⟩
      ⟨true, some (">")⟩ false (some 1) none).2.1 rfl

/-- Claim C7: the fallback probe of `isExecutable`/`isExecutableSync`
reports not-executable exactly when the probe launch failed with code
127 or with a message matching the permission/access regex; a probe
without error, and any probe error with another code and a clean
message (for example the probe ran and exited non-zero), report
executable. -/
theorem isExecutableShim_spec :
    isExecutableShim none = true
  ∧ (∀ e : ShimError, isExecutableShim (some e) = false
      ↔ (e.code = 127 ∨ eaccessTest e.message = true))
  ∧ (∀ e : ShimError, e.code ≠ 127 → eaccessTest e.message = false →
      isExecutableShim (some e) = true) := by
  refine ⟨rfl, ?_, ?_⟩
  · intro e
    simp [isExecutableShim]
    tauto
  · intro e h1 h2
    simp [isExecutableShim, h1, h2]

/-- Witness for C7: code 127 and a permission message each probe as
not-executable; a non-zero exit (code 1, clean message) probes as
executable. -/
theorem isExecutableShim_spec_w :
    isExecutableShim (some ⟨127, "spawn failure"⟩) = false
  ∧ isExecutableShim (some ⟨1, "EACCESS: denied"⟩) = false
  ∧ isExecutableShim (some ⟨1, "exit status 1"⟩) = true := by
  refine ⟨?_, ?_, ?_⟩
  · exact (isExecutableShim_spec.2.1 ⟨127, "spawn failure"⟩).mpr (Or.inl rfl)
  · exact (isExecutableShim_spec.2.1 ⟨1, "EACCESS: denied"⟩).mpr (Or.inr (by decide))
  · exact isExecutableShim_spec.2.2 ⟨1, "exit status 1"⟩ (by decide) (by decide)

theorem joinWithSpace_map_mk (ls : List (List Char)) :
    joinWithSpace (ls.map String.mk) = String.mk (joinSpaceChars ls) := by
  induction ls with
  | nil => rfl
  | cons t ts ih =>
    cases ts with
    | nil => rfl
    | cons t2 ts2 =>
      show String.mk t ++ " " ++ joinWithSpace ((t2 :: ts2).map String.mk)
          = String.mk (t ++ ' ' :: joinSpaceChars (t2 :: ts2))
      rw [ih]
      show String.mk ((t ++ [' ']) ++ joinSpaceChars (t2 :: ts2))
          = String.mk (t ++ ' ' :: joinSpaceChars (t2 :: ts2))
      rw [List.append_assoc]
      rfl

theorem headD_map_mk (l : List (List Char)) (h : l ≠ []) :
    (l.map String.mk).headD ("") = String.mk (l.headD []) := by
  cases l with
  | nil => exact absurd rfl h
  | cons a as => rfl

/-- Claim C8 counterexample: the source splits a string command at space
characters only; on a command containing a tab (which is whitespace) the
source normalization and the claimed whitespace-splitting disagree. -/
theorem splitCommand_whitespace_cex :
    splitCommand ("echo\thello") = ["echo\thello"]
  ∧ specWhitespaceSplit ("echo\thello") = ["echo", "hello"]
  ∧ splitCommand ("echo\thello") ≠ specWhitespaceSplit ("echo\thello") := by
  refine ⟨by decide, by decide, by decide⟩

/-- Claim C8 (amended): a plain string command is normalized into an argv
list by splitting at every space character (joining the tokens back with
single spaces restores the command), and the executable name is the
first token, the text before the first space. -/
theorem spawn_command_split (s : String) :
    normalizeCommand (Sum.inl s) = splitCommand s
  ∧ joinWithSpace (splitCommand s) = s
  ∧ commandExecName (Sum.inl s)
      = String.mk (s.data.takeWhile (fun c => !(decide (c = ' ')))) := by
  refine ⟨rfl, ?_, ?_⟩
  · show joinWithSpace ((splitFieldsAux (fun c => c = ' ') s.data []).map String.mk) = s
    rw [joinWithSpace_map_mk, joinSpaceChars_splitFieldsAux_space]
    rfl
  · show ((splitFieldsAux (fun c => c = ' ') s.data []).map String.mk).headD ("")
        = String.mk (s.data.takeWhile (fun c => !(decide (c = ' '))))
    rw [headD_map_mk _ (splitFieldsAux_ne_nil _ _ _), splitFieldsAux_head]
    rfl

/-- Witness for C8 (amended) at a concrete command string. -/
theorem spawn_command_split_w :
    joinWithSpace (splitCommand ("npm install jade --save")) = "npm install jade --save"
  ∧ commandExecName (Sum.inl ("npm install jade --save")) = "npm" := by
  refine ⟨(spawn_command_split ("npm install jade --save")).2.1, ?_⟩
  · rw [(spawn_command_split ("npm install jade --save")).2.2]
    decide

theorem runBatchAux_one_err (e : String) (fuel : Nat) (pending : List Outcome)
    (results : List Outcome) (sched : List Nat) :
    runBatchAux 1 fuel pending [] results (some e) sched = (results, some e) := by
  cases fuel with
  | zero => rfl
  | succ f => simp [runBatchAux]

theorem runBatchAux_one (pending : List Outcome) :
    ∀ fuel results sched, 2 * pending.length < fuel →
      runBatchAux 1 fuel pending [] results none sched
        = (results ++ (specSeqBatch pending).1, (specSeqBatch pending).2) := by
  induction pending with
  | nil =>
    intro fuel results sched hf
    cases fuel with
    | zero => omega
    | succ f => simp [runBatchAux, specSeqBatch]
  | cons p rest ih =>
    intro fuel results sched hf
    cases fuel with
    | zero => omega
    | succ f =>
      cases f with
      | zero =>
        exfalso
        simp only [List.length_cons] at hf
        omega
      | succ f2 =>
        have h1 : runBatchAux 1 (f2 + 1 + 1) (p :: rest) [] results none sched
            = runBatchAux 1 (f2 + 1) rest [p] results none sched := by
          simp [runBatchAux]
        have h2 : runBatchAux 1 (f2 + 1) rest [p] results none sched
            = runBatchAux 1 f2 rest [] (results ++ [p]) p.err sched.tail := by
          simp [runBatchAux, Nat.mod_one, List.eraseIdx]
        rw [h1, h2]
        cases hpe : p.err with
        | none =>
          rw [ih f2 (results ++ [p]) sched.tail (by
            have h3 : 2 * (rest.length + 1) < f2 + 1 + 1 := by simpa using hf
            omega)]
          simp [specSeqBatch, hpe]
        | some e =>
          rw [runBatchAux_one_err e f2 rest (results ++ [p]) sched.tail]
          simp [specSeqBatch, hpe]

theorem specSeqBatch_take (cmds : List Outcome) :
    ∃ k, (specSeqBatch cmds).1 = cmds.take k := by
  induction cmds with
  | nil => exact ⟨0, rfl⟩
  | cons p rest ih =>
    cases hpe : p.err with
    | none =>
      obtain ⟨k, hk⟩ := ih
      exact ⟨k + 1, by simp [specSeqBatch, hpe, hk]⟩
    | some e => exact ⟨1, by simp [specSeqBatch, hpe]⟩

theorem specSeqBatch_err (cmds : List Outcome) :
    (specSeqBatch cmds).2 = cmds.findSome? Outcome.err := by
  induction cmds with
  | nil => rfl
  | cons p rest ih =>
    cases hpe : p.err with
    | none => simp [specSeqBatch, hpe, List.findSome?_cons, ih]
    | some e => simp [specSeqBatch, hpe, List.findSome?_cons]

/-- Claim C2 counterexample: with concurrency 2 and a schedule in which
the second command completes before the first, `spawnMultiple` delivers
the outcome list in completion order, not in submission order. -/
theorem spawnMultiple_order_cex :
    (spawnMultiple (some 2) [⟨none, "A"⟩, ⟨none, "B"⟩] [1]).1
        = [⟨none, "B"⟩, ⟨none, "A"⟩]
  ∧ (spawnMultiple (some 2) [⟨none, "A"⟩, ⟨none, "B"⟩] [1]).1
        ≠ [⟨none, "A"⟩, ⟨none, "B"⟩] := by
  refine ⟨by decide, by decide⟩

/-- Claim C2 (amended): the batch runners collect per-command outcomes in
completion order; under the default configuration (concurrency unset,
hence 1) execution is sequential, so for every schedule the outcome list
is in submission order (a prefix of the command list, cut short by the
first error), and the batch-level error passed to the callback is the
first per-command error. -/
theorem runMultiple_sequential_order (cmds : List Outcome) (sched : List Nat) :
    spawnMultiple (some 1) cmds sched = specSeqBatch cmds
  ∧ spawnMultiple none cmds sched = specSeqBatch cmds
  ∧ execMultiple (some 1) cmds sched = specSeqBatch cmds
  ∧ execMultiple none cmds sched = specSeqBatch cmds
  ∧ (∃ k, (specSeqBatch cmds).1 = cmds.take k)
  ∧ (specSeqBatch cmds).2 = cmds.findSome? Outcome.err := by
  have h := runBatchAux_one cmds (2 * cmds.length + 1) [] sched (by omega)
  have hs : runBatchAux 1 (2 * cmds.length + 1) cmds [] [] none sched
      = specSeqBatch cmds := by
    rw [h]; simp
  exact ⟨hs, hs, hs, hs, specSeqBatch_take cmds, specSeqBatch_err cmds⟩

theorem determineExecPath_eq_find (env : ResolveEnv) (cs : List String) :
    (determineExecPath env cs).1 = specFirstAccepted env cs := by
  induction cs with
  | nil => rfl
  | cons c cs ih =>
    by_cases hc : c = ""
    · subst hc
      simpa [determineExecPath, specFirstAccepted] using ih
    · by_cases he : env.isExec (env.resolvePath c) = true
      · simp [determineExecPath, specFirstAccepted, hc, he]
      · have he2 : env.isExec (env.resolvePath c) = false := by
          revert he; cases env.isExec (env.resolvePath c) <;> simp
        simpa [determineExecPath, specFirstAccepted, hc, he2] using ih

theorem determineExecPath_verified (env : ResolveEnv) (cs : List String) (p : String)
    (h : (determineExecPath env cs).1 = some p) : env.isExec p = true := by
  rw [determineExecPath_eq_find] at h
  exact List.find?_some h

theorem determineExecPath_ne_empty (env : ResolveEnv)
    (hres : ∀ s, env.resolvePath s ≠ "") (cs : List String) (p : String)
    (h : (determineExecPath env cs).1 = some p) : p ≠ "" := by
  induction cs with
  | nil => exact absurd h (by simp [determineExecPath])
  | cons c cs ih =>
    by_cases hc : c = ""
    · subst hc
      exact ih (by simpa [determineExecPath] using h)
    · by_cases he : env.isExec (env.resolvePath c) = true
      · have h2 : some (env.resolvePath c) = some p := by
          simpa [determineExecPath, hc, he] using h
        have h3 : env.resolvePath c = p := by injection h2
        exact h3 ▸ hres c
      · have he2 : env.isExec (env.resolvePath c) = false := by
          revert he; cases env.isExec (env.resolvePath c) <;> simp
        exact ih (by simpa [determineExecPath, hc, he2] using h)

/-- Claim C3: for a name that is not absolute, not specially dispatched,
and not answered from the cache, `getExecPath` returns the first
candidate, in candidate-list order (the resolved form of each non-empty
candidate), that the executable verifier accepts; when no candidate
verifies it fails with the message naming the executable and returns no
path. -/
theorem getExecPath_generic (env : ResolveEnv) (ce : Bool)
    (cache : List (String × String)) (name : String)
    (h1 : isAbsoluteExecPath name = false)
    (h2 : isSpecialExecName name = false)
    (h3 : (ce && strTruthy (cacheLookup cache name)) = false) :
    (getExecPath env ce cache name).1 =
      (match specFirstAccepted env (getPossibleExecPaths env name) with
       | some p => ExecPathOutcome.found p
       | none => ExecPathOutcome.notFound
           ("Could not locate the " ++ name ++ " executable path")) := by
  rw [← determineExecPath_eq_find]
  simp only [getExecPath, h1, h2, h3, Bool.false_eq_true, if_false]
  cases hd : (determineExecPath env (getPossibleExecPaths env name)).1 <;> simp [hd]

/-- Witness for C3: in the sample Unix environment the name `ls`
resolves to the only verifier-accepted candidate, the second entry of
the candidate list. -/
theorem getExecPath_generic_w :
    (getExecPath sampleUnixEnv true [] "ls").1 = ExecPathOutcome.found ("/bin/ls") := by
  have h := getExecPath_generic sampleUnixEnv true [] "ls" (by decide) (by decide)
    (by decide)
  rw [h]
  decide

/-- Claim C4: an absolute-path input (per the source test: leading slash
or a colon as second character) is returned unchanged, for every cache
state and every environment, with the cache untouched and zero verifier
invocations. -/
theorem getExecPath_absolute (env : ResolveEnv) (ce : Bool)
    (cache : List (String × String)) (name : String)
    (h : isAbsoluteExecPath name = true) :
    getExecPath env ce cache name = (ExecPathOutcome.found name, cache, 0) := by
  simp [getExecPath, h]

/-- Witness for C4: a concrete absolute path passes through unchanged
with an untouched cache and no verifier call. -/
theorem getExecPath_absolute_w :
    getExecPath sampleUnixEnv true [("ls", "/bin/ls")] "/usr/bin/env"
      = (ExecPathOutcome.found ("/usr/bin/env"), [("ls", "/bin/ls")], 0) := by
  exact getExecPath_absolute sampleUnixEnv true [("ls", "/bin/ls")] "/usr/bin/env"
    (by decide)

/-- Claim C5: when a first call of `getExecPath` with caching enabled
returns a found path, a second call with the same name and options
answers with the same path and the same cache state while invoking the
executable verifier zero times.  The hypothesis on `resolvePath` states
that path resolution never returns an empty string (true of
`pathUtil.resolve`). -/
theorem getExecPath_cached_second (env : ResolveEnv)
    (cache cache2 : List (String × String)) (name p : String) (n : Nat)
    (hres : ∀ s, env.resolvePath s ≠ "")
    (h2 : isSpecialExecName name = false)
    (hrun : getExecPath env true cache name = (ExecPathOutcome.found p, cache2, n)) :
    getExecPath env true cache2 name = (ExecPathOutcome.found p, cache2, 0) := by
  by_cases habs : isAbsoluteExecPath name = true
  · have h1 : getExecPath env true cache name
        = (ExecPathOutcome.found name, cache, 0) := by simp [getExecPath, habs]
    rw [h1] at hrun
    simp only [Prod.mk.injEq, ExecPathOutcome.found.injEq] at hrun
    obtain ⟨hp, hc, -⟩ := hrun
    subst hp; subst hc
    simp [getExecPath, habs]
  · have habs2 : isAbsoluteExecPath name = false := by
      revert habs; cases isAbsoluteExecPath name <;> simp
    by_cases hcache : strTruthy (cacheLookup cache name) = true
    · have h1 : getExecPath env true cache name
          = (ExecPathOutcome.found ((cacheLookup cache name).getD ("")), cache, 0) := by
        simp [getExecPath, habs2, h2, hcache]
      rw [h1] at hrun
      simp only [Prod.mk.injEq, ExecPathOutcome.found.injEq] at hrun
      obtain ⟨hp, hc, -⟩ := hrun
      subst hc
      simp [getExecPath, habs2, h2, hcache, hp]
    · have hcache2 : strTruthy (cacheLookup cache name) = false := by
        revert hcache; cases strTruthy (cacheLookup cache name) <;> simp
      cases hd : (determineExecPath env (getPossibleExecPaths env name)).1 with
      | none =>
        exfalso
        have h1 : getExecPath env true cache name
            = (ExecPathOutcome.notFound
                ("Could not locate the " ++ name ++ " executable path"), cache,
               (determineExecPath env (getPossibleExecPaths env name)).2) := by
          simp [getExecPath, habs2, h2, hcache2, hd]
        rw [h1] at hrun
        simp at hrun
      | some q =>
        have h1 : getExecPath env true cache name
            = (ExecPathOutcome.found q, (name, q) :: cache,
               (determineExecPath env (getPossibleExecPaths env name)).2) := by
          simp [getExecPath, habs2, h2, hcache2, hd]
        rw [h1] at hrun
        simp only [Prod.mk.injEq, ExecPathOutcome.found.injEq] at hrun
        obtain ⟨hp, hc, -⟩ := hrun
        have hq : q ≠ "" :=
          determineExecPath_ne_empty env hres (getPossibleExecPaths env name) q hd
        subst hp
        rw [← hc]
        have hlook2 : cacheLookup ((name, q) :: cache) name = some q := by
          simp [cacheLookup]
        simp [getExecPath, habs2, h2, hlook2, strTruthy, hq]

/-- Witness for C5: resolving `ls` twice in the sample Unix environment;
the second call returns the cached path with zero verifier calls. -/
theorem getExecPath_cached_second_w :
    getExecPath sampleUnixEnv true [("ls", "/bin/ls")] "ls"
      = (ExecPathOutcome.found ("/bin/ls"), [("ls", "/bin/ls")], 0) := by
  exact getExecPath_cached_second sampleUnixEnv [] [("ls", "/bin/ls")] "ls" "/bin/ls" 2
    (by
      intro s
      show (if s = "" then ("/") else s) ≠ ""
      split
      · decide
      · assumption)
    (by decide) (by decide)

theorem flatMap_map_variants (l : List String) (name : String) :
    (l.map (fun d => joinPath d name)).flatMap
        (fun p => [p, p ++ ".exe", p ++ ".cmd", p ++ ".bat"])
      = l.flatMap (fun d =>
          [joinPath d name, joinPath d name ++ ".exe",
           joinPath d name ++ ".cmd", joinPath d name ++ ".bat"]) := by
  induction l with
  | nil => rfl
  | cons d l ih => simp only [List.map_cons, List.flatMap_cons, ih]

/-- Claim C6: on Windows, for a non-empty name containing no dot, the
candidate list is the working directory followed by the `PATH`
directories in listed order, each directory joined with the name and
expanded into the four variants bare, `.exe`, `.cmd`, `.bat`, all four
variants of a directory before any variant of the next; for a name with
a dot, or off Windows, only the bare joined candidates are produced. -/
theorem getPossibleExecPaths_spec (env : ResolveEnv) (name : String)
    (hn : name ≠ "") :
    (env.isWindows = true → containsChar name '.' = false →
        getPossibleExecPaths env name = specWindowsVariantCandidates env name)
  ∧ ((env.isWindows = false ∨ containsChar name '.' = true) →
        getPossibleExecPaths env name
          = (env.cwd :: getEnvironmentPaths env).map (fun d => joinPath d name)) := by
  constructor
  · intro hw hd
    rw [specWindowsVariantCandidates, ← flatMap_map_variants]
    simp [getPossibleExecPaths, hw, hd, getStandardExecPaths, hn]
  · intro hcase
    have hcond : (env.isWindows && !(containsChar name '.')) = false := by
      cases hcase with
      | inl hw => simp [hw]
      | inr hd => simp [hd]
    simp [getPossibleExecPaths, hcond, getStandardExecPaths, hn]

/-- Witness for C6: in the sample Windows environment the extensionless
name `foo` expands per directory into the four variants in order. -/
theorem getPossibleExecPaths_spec_w :
    getPossibleExecPaths sampleWinEnv "foo" = specWindowsVariantCandidates sampleWinEnv "foo"
  ∧ getPossibleExecPaths sampleWinEnv "foo.exe"
      = (sampleWinEnv.cwd :: getEnvironmentPaths sampleWinEnv).map
          (fun d => joinPath d "foo.exe") := by
  refine ⟨?_, ?_⟩
  · exact (getPossibleExecPaths_spec sampleWinEnv "foo" (by decide)).1 rfl (by decide)
  · exact (getPossibleExecPaths_spec sampleWinEnv "foo.exe" (by decide)).2
      (Or.inr (by decide))

/-- Claim C9 counterexample: `getHomePath` writes the environment-derived
home directory to its cache slot without any verifier involvement; in an
environment whose verifier accepts no path at all, the cache slot still
receives the value, so a cache write with an unverified value occurs. -/
theorem homeCache_unverified_write :
    (getHomePath sampleNoExecEnv true none).2 = some ("/home/alice")
  ∧ sampleNoExecEnv.isExec ("/home/alice") = false := by
  refine ⟨by decide, rfl⟩

/-- Claim C9 (amended): every write to the generic `execPathCache` by
`getExecPath`, and to the git, node, and npm singleton caches by their
resolvers, stores only a path the executable verifier accepted; the
home-directory (and temp-directory) caches are outside this guarantee,
as they are written with environment-derived values the verifier never
sees. -/
theorem cacheWrites_verified :
    (∀ (env : ResolveEnv) (ce : Bool) (cache : List (String × String)) (name : String),
        (getExecPath env ce cache name).2.1 = cache
      ∨ ∃ p, (getExecPath env ce cache name).2.1 = (name, p) :: cache
          ∧ env.isExec p = true)
  ∧ (∀ (env : ResolveEnv) (ce : Bool) (cached : Option String),
        (getGitPath env ce cached).2.1 = cached
      ∨ ∃ p, (getGitPath env ce cached).2.1 = some p ∧ env.isExec p = true)
  ∧ (∀ (env : ResolveEnv) (ce : Bool) (cached : Option String),
        (getNodePath env ce cached).2.1 = cached
      ∨ ∃ p, (getNodePath env ce cached).2.1 = some p ∧ env.isExec p = true)
  ∧ (∀ (env : ResolveEnv) (ce : Bool) (cached : Option String),
        (getNpmPath env ce cached).2.1 = cached
      ∨ ∃ p, (getNpmPath env ce cached).2.1 = some p ∧ env.isExec p = true) := by
  refine ⟨?_, ?_, ?_, ?_⟩
  · intro env ce cache name
    by_cases habs : isAbsoluteExecPath name = true
    · left; simp [getExecPath, habs]
    · have habs2 : isAbsoluteExecPath name = false := by
        revert habs; cases isAbsoluteExecPath name <;> simp
      by_cases hsp : isSpecialExecName name = true
      · left; simp [getExecPath, habs2, hsp]
      · have hsp2 : isSpecialExecName name = false := by
          revert hsp; cases isSpecialExecName name <;> simp
        by_cases hcc : (ce && strTruthy (cacheLookup cache name)) = true
        · left; simp [getExecPath, habs2, hsp2, hcc]
        · have hcc2 : (ce && strTruthy (cacheLookup cache name)) = false := by
            revert hcc; cases (ce && strTruthy (cacheLookup cache name)) <;> simp
          cases hd : (determineExecPath env (getPossibleExecPaths env name)).1 with
          | none => left; simp [getExecPath, habs2, hsp2, hcc2, hd]
          | some q =>
            cases ce with
            | false => left; simp [getExecPath, habs2, hsp2, hcc2, hd]
            | true =>
              right
              exact ⟨q, by simp [getExecPath, habs2, hsp2, hcc2, hd],
                determineExecPath_verified env _ q hd⟩
  · intro env ce cached
    by_cases hcc : (ce && strTruthy cached) = true
    · left; simp [getGitPath, hcc]
    · have hcc2 : (ce && strTruthy cached) = false := by
        revert hcc; cases (ce && strTruthy cached) <;> simp
      simp only [getGitPath, hcc2, Bool.false_eq_true, if_false]
      split
      next hd => left; rfl
      next q hd =>
        cases ce with
        | false => left; simp
        | true =>
          right
          exact ⟨q, by simp, determineExecPath_verified env _ q hd⟩
  · intro env ce cached
    by_cases hcc : (ce && strTruthy cached) = true
    · left; simp [getNodePath, hcc]
    · have hcc2 : (ce && strTruthy cached) = false := by
        revert hcc; cases (ce && strTruthy cached) <;> simp
      simp only [getNodePath, hcc2, Bool.false_eq_true, if_false]
      split
      next hd => left; rfl
      next q hd =>
        cases ce with
        | false => left; simp
        | true =>
          right
          exact ⟨q, by simp, determineExecPath_verified env _ q hd⟩
  · intro env ce cached
    by_cases hcc : (ce && strTruthy cached) = true
    · left; simp [getNpmPath, hcc]
    · have hcc2 : (ce && strTruthy cached) = false := by
        revert hcc; cases (ce && strTruthy cached) <;> simp
      simp only [getNpmPath, hcc2, Bool.false_eq_true, if_false]
      split
      next hd => left; rfl
      next q hd =>
        cases ce with
        | false => left; simp
        | true =>
          right
          exact ⟨q, by simp, determineExecPath_verified env _ q hd⟩

end Safeps
